import Mathlib

/-!
Verification development for the domafic virtual-DOM library.

The definitions below are a shallow embedding of the library's core:

* Keys (src/keys.rs) and KeyStack (src/key_stack.rs): fixed-capacity key
  stacks.  Machine integers are modelled as Nat; the 32-slot array is a
  list of length 32 maintained by construction.  A push past capacity
  panics in the source (debug_assert, or the out-of-bounds write in
  release builds), which the embedding models as Option.none.
* The reconciler add_node (src/web_render.rs, WebWriter::get_processor):
  logical DomNode trees (LNode) are diffed against the persisted shadow
  tree (VDomNode); host mutations are accumulated as a HostCall trace.
  Listener identity is the raw pointer of the handler, modelled as an
  opaque Nat id; attribute values are modelled by their string value with
  structural equality, mirroring the derived PartialEq of the source.
* with_key (src/dom_node.rs): the assert on double keying is modelled as
  Option.none, and the key-as-u32 cast as reduction modulo 2^32.
* The HTML writer of the lib.rs revision (html_writer::HtmlWriter in
  src/lib.rs): plain recursive string emission.
* Event dispatch (handle_listener in src/web_render.rs): the keys stored
  with a subscription are marshalled through the FFI boundary as a size
  plus 32 slots and rebuilt verbatim; update is invoked with the message
  and the key iterator (bottom to top).
-/

/-- Embedding of the Keys struct of src/keys.rs: size plus a 32-slot
stack.  The stack field is a list whose length is 32 by construction. -/
structure Keys where
  size : Nat
  stack : List Nat
deriving DecidableEq, Repr

def KEY_STACK_LEN : Nat := 32

/-- Keys::new of src/keys.rs. -/
def Keys.new : Keys := { size := 0, stack := List.replicate KEY_STACK_LEN 0 }

/-- Keys::push of src/keys.rs.  Pushing at capacity fails the
debug_assert (or the array write goes out of bounds in release builds)
and panics, modelled as none. -/
def Keys.push (self : Keys) (key : Nat) : Option Keys :=
  if self.size < KEY_STACK_LEN then
    some { size := self.size + 1, stack := self.stack.set self.size key }
  else
    none

/-- The key sequence yielded by KeyIter of src/keys.rs, bottom to top:
stack slots 0 up to size - 1. -/
def Keys.toList (self : Keys) : List Nat := self.stack.take self.size

/-- A Keys value as actually constructed by new and push: the backing
stack has exactly KEY_STACK_LEN slots. -/
def Keys.wf (self : Keys) : Prop := self.stack.length = KEY_STACK_LEN

instance (k : Keys) : Decidable k.wf := by unfold Keys.wf; infer_instance

/-- Embedding of the KeyStack struct of src/key_stack.rs (the older
revision of the key-path module; usize fields, same 32 capacity). -/
structure KeyStack where
  size : Nat
  stack : List Nat
deriving DecidableEq, Repr

/-- KeyStack::new of src/key_stack.rs. -/
def KeyStack.new : KeyStack := { size := 0, stack := List.replicate KEY_STACK_LEN 0 }

/-- KeyStack::push of src/key_stack.rs; pushing past capacity panics
(debug_assert or out-of-bounds write), modelled as none. -/
def KeyStack.push (self : KeyStack) (key : Nat) : Option KeyStack :=
  if self.size < KEY_STACK_LEN then
    some { size := self.size + 1, stack := self.stack.set self.size key }
  else
    none

/-- DOMValue / VNodeValue: an element's tag name or a text node's
content.  VNodeValue in src/web_render.rs derives PartialEq, so the text
content takes part in equality. -/
inductive LNodeValue where
  | text (content : String)
  | tag (name : String)
deriving DecidableEq, Repr

/-- A listener of the logical tree.  The reconciler compares listeners
by the raw fat pointer of the erased handler reference together with the
event type string (ListenersToVec in src/web_render.rs); ptr is that
opaque pointer identity. -/
structure LListener where
  ptr : Nat
  eventType : String
deriving DecidableEq, Repr

/-- A logical DomNode tree as consumed by the reconciler: value, optional
key, attributes in order, listeners in order, children in order. -/
inductive LNode where
  | node (value : LNodeValue) (key : Option Nat)
      (attributes : List (String × String))
      (listeners : List LListener)
      (children : List LNode)
deriving Repr

def LNode.value : LNode → LNodeValue
  | .node v _ _ _ _ => v

def LNode.key : LNode → Option Nat
  | .node _ k _ _ _ => k

def LNode.attributes : LNode → List (String × String)
  | .node _ _ a _ _ => a

def LNode.listeners : LNode → List LListener
  | .node _ _ _ l _ => l

def LNode.children : LNode → List LNode
  | .node _ _ _ _ c => c

/-- An attached listener entry of a VDomNode in src/web_render.rs:
the WebElement handle of the JS callback (subId), the handler pointer and
the event type. -/
structure VListener where
  subId : Nat
  ptr : Nat
  eventType : String
deriving DecidableEq, Repr

/-- The shadow tree VDomNode of src/web_render.rs: value, accumulated
keys, host element handle, applied attributes, attached listeners,
children. -/
inductive VDomNode where
  | mk (value : LNodeValue) (keys : Keys) (webElement : Nat)
      (attributes : List (String × String))
      (listeners : List VListener)
      (children : List VDomNode)
deriving Repr

def VDomNode.value : VDomNode → LNodeValue
  | .mk v _ _ _ _ _ => v

def VDomNode.keys : VDomNode → Keys
  | .mk _ k _ _ _ _ => k

def VDomNode.webElement : VDomNode → Nat
  | .mk _ _ w _ _ _ => w

def VDomNode.attributes : VDomNode → List (String × String)
  | .mk _ _ _ a _ _ => a

def VDomNode.listeners : VDomNode → List VListener
  | .mk _ _ _ _ l _ => l

def VDomNode.children : VDomNode → List VDomNode
  | .mk _ _ _ _ _ c => c

/-- The host mutations the reconciler performs, in order.  Fresh host
handles (pool ids) are recorded with the creating call. -/
inductive HostCall where
  | createElement (tag : String) (id : Nat)
  | createText (content : String) (id : Nat)
  | setAttribute (node : Nat) (name : String) (value : String)
  | removeAttribute (node : Nat) (name : String)
  | insertChild (parent : Nat) (index : Nat) (child : Nat)
  | moveChild (parent : Nat) (fromIndex : Nat) (toIndex : Nat)
  | removeNode (node : Nat)
  | addListener (node : Nat) (eventType : String) (ptr : Nat) (keys : Keys) (subId : Nat)
  | removeListener (node : Nat) (subId : Nat) (eventType : String)
deriving DecidableEq, Repr

/-- The reconciler's accumulator (WebWriterAcc): the sibling level of the
shadow tree, the cursor node_index into it, the next fresh pool id, and
the trace of host calls made so far. -/
structure RState where
  level : List VDomNode
  idx : Nat
  nextId : Nat
  calls : List HostCall
deriving Repr

/-- The key-path extension at a node in add_node: if the node carries a
key it is pushed onto the accumulated Keys (which panics past capacity,
modelled as none), otherwise the accumulated Keys pass through. -/
def extendKey (k : Keys) (key : Option Nat) : Option Keys :=
  match key with
  | some kk => k.push kk
  | none => some k

/-- The candidate-matching scan of add_node: starting from the cursor,
find the first shadow node whose keys and value both equal the
candidate's; returns the offset from the cursor and the node. -/
def scanMatch (ks : Keys) (v : LNodeValue) : List VDomNode → Option (Nat × VDomNode)
  | [] => none
  | w :: rest =>
    if w.keys = ks ∧ w.value = v then some (0, w)
    else (scanMatch ks v rest).map (fun r => (r.1 + 1, r.2))

/-- The remove-excess-listeners loop of add_node: an attached listener is
kept iff some candidate listener has the same handler pointer and event
type; otherwise the host remove_listener is called and it is dropped.
Returns the retained listeners and the calls, both in order. -/
def diffRemoveListeners (elem : Nat) (cand : List LListener) :
    List VListener → List VListener × List HostCall
  | [] => ([], [])
  | l :: rest =>
    let r := diffRemoveListeners elem cand rest
    if cand.any (fun c => c.ptr = l.ptr && c.eventType = l.eventType) then
      (l :: r.1, r.2)
    else
      (r.1, HostCall.removeListener elem l.subId l.eventType :: r.2)

/-- The add-new-listeners loop of add_node: each candidate listener not
already attached (same pointer and event type) is attached via the host
set_listener, which allocates a fresh subscription handle and records the
extended key path. -/
def addNewListeners (elem : Nat) (ks : Keys) :
    List LListener → List VListener → Nat → List VListener × Nat × List HostCall
  | [], vls, nid => (vls, nid, [])
  | c :: rest, vls, nid =>
    if vls.any (fun x => x.ptr = c.ptr && x.eventType = c.eventType) then
      addNewListeners elem ks rest vls nid
    else
      let r := addNewListeners elem ks rest (vls ++ [⟨nid, c.ptr, c.eventType⟩]) (nid + 1)
      (r.1, r.2.1, HostCall.addListener elem c.eventType c.ptr ks nid :: r.2.2)

/-- The remove-excess-attributes loop of add_node: a shadow attribute is
kept iff the candidate has an attribute with the same name and value;
otherwise remove_attribute is called with its name and it is dropped. -/
def diffRemoveAttrs (elem : Nat) (cand : List (String × String)) :
    List (String × String) → List (String × String) × List HostCall
  | [] => ([], [])
  | a :: rest =>
    let r := diffRemoveAttrs elem cand rest
    if cand.any (fun b => b = a) then
      (a :: r.1, r.2)
    else
      (r.1, HostCall.removeAttribute elem a.1 :: r.2)

/-- The add-new-attributes loop of add_node: each candidate attribute not
contained (same name and value) in the running attribute list triggers
set_attribute and is appended. -/
def addNewAttrs (elem : Nat) :
    List (String × String) → List (String × String) → List (String × String) × List HostCall
  | [], vas => (vas, [])
  | a :: rest, vas =>
    if vas.contains a then
      addNewAttrs elem rest vas
    else
      let r := addNewAttrs elem rest (vas ++ [a])
      (r.1, HostCall.setAttribute elem a.1 a.2 :: r.2)

/-- Listener attachment in the construct-as-new-element branch of
add_node: every candidate listener is attached unconditionally, in
order. -/
def attachAllListeners (elem : Nat) (ks : Keys) :
    List LListener → Nat → List VListener × Nat × List HostCall
  | [], nid => ([], nid, [])
  | c :: rest, nid =>
    let r := attachAllListeners elem ks rest (nid + 1)
    (⟨nid, c.ptr, c.eventType⟩ :: r.1, r.2.1,
      HostCall.addListener elem c.eventType c.ptr ks nid :: r.2.2)

/-- Attribute attachment in the construct-as-new-element branch of
add_node: every candidate attribute is set unconditionally, in order. -/
def setAllAttrs (elem : Nat) :
    List (String × String) → List (String × String) × List HostCall
  | [] => ([], [])
  | a :: rest =>
    let r := setAllAttrs elem rest
    (a :: r.1, HostCall.setAttribute elem a.1 a.2 :: r.2)

/-- One pass of the leftover-removal loop of add_node, with an explicit
iteration bound: while the cursor is below the shadow level's length, the
last shadow child is popped and its host node removed (remove_self).
Each iteration shortens the level by one, so a bound equal to the initial
length is never exhausted. -/
def removeLeftoversAux : Nat → Nat → List VDomNode → List VDomNode × List HostCall
  | 0, _, level => (level, [])
  | fuel + 1, idx, level =>
    if idx < level.length then
      match level.getLast? with
      | some w =>
        let r := removeLeftoversAux fuel idx level.dropLast
        (r.1, HostCall.removeNode w.webElement :: r.2)
      | none => (level, [])
    else (level, [])

/-- The leftover-removal loop of add_node (the while loop popping unused
children and calling remove_self on each). -/
def removeLeftovers (idx : Nat) (level : List VDomNode) :
    List VDomNode × List HostCall :=
  removeLeftoversAux level.length idx level

mutual
/-- The reconciler add_node of src/web_render.rs for a single logical
node: extend the key path, scan for a matching shadow node at or after
the cursor; on a match diff listeners, attributes and children in place
and move the node if its index changed; otherwise create a fresh host
node, attach everything, and insert it at the cursor. -/
def addNode (k : Keys) (parent : Nat) (st : RState) (n : LNode) : Option RState :=
  match n with
  | .node v key attrs lis children =>
    match extendKey k key with
    | none => none
    | some keys =>
      match scanMatch keys v (st.level.drop st.idx) with
      | some offw =>
        let vidx := st.idx + offw.1
        let vnode := offw.2
        let p1 := diffRemoveListeners vnode.webElement lis vnode.listeners
        let p2 := addNewListeners vnode.webElement keys lis p1.1 st.nextId
        let p3 := diffRemoveAttrs vnode.webElement attrs vnode.attributes
        let p4 := addNewAttrs vnode.webElement attrs p3.1
        match addNodes keys vnode.webElement
            { level := vnode.children, idx := 0, nextId := p2.2.1, calls := [] } children with
        | none => none
        | some cst =>
          let p6 := removeLeftovers cst.idx cst.level
          let vnode' := VDomNode.mk vnode.value vnode.keys vnode.webElement p4.1 p2.1 p6.1
          let level1 := st.level.set vidx vnode'
          let moved :=
            if st.idx = vidx then (level1, ([] : List HostCall))
            else ((level1.eraseIdx vidx).insertIdx st.idx vnode',
              [HostCall.moveChild parent vidx st.idx])
          some { level := moved.1, idx := st.idx + 1, nextId := cst.nextId,
                 calls := st.calls ++ p1.2 ++ p2.2.2 ++ p3.2 ++ p4.2 ++ cst.calls
                   ++ p6.2 ++ moved.2 }
      | none =>
        let elemId := st.nextId
        let createCall := match v with
          | LNodeValue.tag t => HostCall.createElement t elemId
          | LNodeValue.text s => HostCall.createText s elemId
        let q1 := attachAllListeners elemId keys lis (elemId + 1)
        let q2 := setAllAttrs elemId attrs
        match addNodes keys elemId
            { level := [], idx := 0, nextId := q1.2.1, calls := [] } children with
        | none => none
        | some cst =>
          let p6 := removeLeftovers cst.idx cst.level
          let vnode := VDomNode.mk v keys elemId q2.1 q1.1 p6.1
          some { level := st.level.insertIdx st.idx vnode, idx := st.idx + 1,
                 nextId := cst.nextId,
                 calls := st.calls ++ [createCall] ++ q1.2.2 ++ q2.2 ++ cst.calls ++ p6.2
                   ++ [HostCall.insertChild parent st.idx elemId] }

/-- process_all over a sibling list: each logical node is fed to add_node
left to right, threading the accumulator; the cursor advances by one per
node. -/
def addNodes (k : Keys) (parent : Nat) (st : RState) (ns : List LNode) : Option RState :=
  match ns with
  | [] => some st
  | n :: rest =>
    match addNode k parent st n with
    | none => none
    | some st' => addNodes k parent st' rest
end

/-- The (pointer identity, event type) pair by which the reconciler
compares listeners. -/
def VListener.pr (x : VListener) : Nat × String := (x.ptr, x.eventType)

/-- The (pointer identity, event type) pair of a candidate listener. -/
def LListener.pr (c : LListener) : Nat × String := (c.ptr, c.eventType)

mutual
/-- All key pushes along the tree stay within the 32-slot capacity, so
reconciling the tree never hits the key-depth panic. -/
def buildOk (k : Keys) (n : LNode) : Bool :=
  match n with
  | .node _ key _ _ children =>
    match extendKey k key with
    | none => false
    | some keys => buildOkList keys children

/-- buildOk for a sibling list. -/
def buildOkList (k : Keys) (ns : List LNode) : Bool :=
  match ns with
  | [] => true
  | n :: rest => buildOk k n && buildOkList k rest
end

mutual
/-- The shadow node is structurally identical to the logical node under
ambient key path k: same extended keys, same value (tag or text content),
the same attribute list, attached listeners with exactly the candidate
(pointer, event type) pairs in order, and children pairwise identical. -/
def representsB (k : Keys) (v : VDomNode) (n : LNode) : Bool :=
  match n with
  | .node val key attrs lis children =>
    match extendKey k key with
    | none => false
    | some keys =>
      v.keys == keys && v.value == val && v.attributes == attrs &&
      (v.listeners.map VListener.pr == lis.map LListener.pr) &&
      representsListB keys v.children children

/-- representsB, pointwise over sibling lists of equal length. -/
def representsListB (k : Keys) (vs : List VDomNode) (ns : List LNode) : Bool :=
  match vs, ns with
  | [], [] => true
  | v :: vs', n :: ns' => representsB k v n && representsListB k vs' ns'
  | _, _ => false
end

/-- The specification-side image of extendKey on key sequences: append
the node's own key when present. -/
def extendPath (base : List Nat) (key : Option Nat) : List Nat :=
  match key with
  | some kk => base ++ [kk]
  | none => base

mutual
/-- Specification-side key paths: every listener of the tree paired with
the ordered keys of its keyed ancestors from the root down, including the
owning node's own key when present. -/
def listenerPaths (base : List Nat) (n : LNode) : List (Nat × String × List Nat) :=
  match n with
  | .node _ key _ lis children =>
    lis.map (fun l => (l.ptr, l.eventType, extendPath base key)) ++
      listenerPathsList (extendPath base key) children

/-- listenerPaths over a sibling list. -/
def listenerPathsList (base : List Nat) (ns : List LNode) : List (Nat × String × List Nat) :=
  match ns with
  | [] => []
  | n :: rest => listenerPaths base n ++ listenerPathsList base rest
end

/-- The data recorded with a host add_listener call: handler pointer,
event type, and the key path (bottom to top) stored with the
subscription. -/
def listenerCallData : HostCall → Option (Nat × String × List Nat)
  | .addListener _ t ptr ks _ => some (ptr, t, ks.toList)
  | _ => none

/-- DomNode::with_key of src/dom_node.rs: asserts that the node has no
key yet (a second key is a caller error and panics, modelled as none)
and wraps the node so that key() returns the given key cast to u32. -/
def withKey (n : LNode) (key : Nat) : Option LNode :=
  match n with
  | .node v k attrs lis children =>
    match k with
    | none => some (.node v (some (key % 2 ^ 32)) attrs lis children)
    | some _ => none

/-- A DOMNode tree as seen by the HTML writer: tag with attributes and
children, or a text node. -/
inductive HNode where
  | element (tag : String) (attrs : List (String × String)) (children : List HNode)
  | text (content : String)
deriving Repr

/-- The attribute loop of html_writer::HtmlWriter::get_processor in
src/lib.rs: each attribute is written as a space, the name, an equals
sign, and the value verbatim between double quotes. -/
def writeAttrs : List (String × String) → String
  | [] => ""
  | a :: rest => " " ++ a.1 ++ "=\"" ++ a.2 ++ "\"" ++ writeAttrs rest

mutual
/-- add_node of html_writer::HtmlWriter in src/lib.rs: elements are
emitted as an open tag with attributes, the children, and a close tag;
text nodes are written verbatim. -/
def writeHtml : HNode → String
  | .element tag attrs children =>
    "<" ++ tag ++ writeAttrs attrs ++ ">" ++ writeHtmlList children ++ "</" ++ tag ++ ">"
  | .text s => s

/-- process_children for the HTML writer: children are written in
order. -/
def writeHtmlList : List HNode → String
  | [] => ""
  | n :: rest => writeHtml n ++ writeHtmlList rest
end

/-- The DOM event payload delivered to a listener (src/listener.rs). -/
structure Event where
  typeStr : Option String
  targetValue : Option String
  clientX : Int
  clientY : Int
  offsetX : Int
  offsetY : Int
  whichKeycode : Int
  shiftKey : Bool
  altKey : Bool
  ctrlKey : Bool
  metaKey : Bool
deriving DecidableEq, Repr

/-- set_listener marshals the key path across the FFI boundary as the
size plus the 32 stack slots. -/
def marshalKeys (k : Keys) : Nat × List Nat := (k.size, k.stack)

/-- handle_listener of src/web_render.rs: rebuild the Keys from the
marshalled size and slots, obtain the message from the handler, and call
update with the state, the message, and the key iterator (bottom to
top).  The subsequent render and reconcile steps do not affect the
arguments given to update. -/
def handleListener {S M : Type} (handler : Event → M) (sizeStack : Nat × List Nat)
    (update : S → M → List Nat → S) (state : S) (ev : Event) : S :=
  let keys : Keys := { size := sizeStack.1, stack := sizeStack.2 }
  update state (handler ev) keys.toList

/-- One render-dispatch cycle as driven by run and handle_listener of
src/web_render.rs: draw the first tree into the empty root (element 0,
pool ids from 1), then reconcile the resulting shadow level against the
second tree; returns the host-call traces of both passes. -/
def reRender (t1 t2 : LNode) : Option (List HostCall × List HostCall) :=
  match addNode Keys.new 0 { level := [], idx := 0, nextId := 1, calls := [] } t1 with
  | none => none
  | some st1 =>
    (addNode Keys.new 0 { level := st1.level, idx := 0, nextId := st1.nextId, calls := [] } t2).map
      (fun st2 => (st1.calls, st2.calls))

/-! ### Basic lemmas about Keys and list plumbing -/

theorem take_set_eq_take_append {α : Type} (l : List α) (n : Nat) (a : α)
    (h : n < l.length) : (l.set n a).take (n + 1) = l.take n ++ [a] := by
  induction l generalizing n with
  | nil => simp at h
  | cons x xs ih =>
    cases n with
    | zero => simp
    | succ m =>
      simp only [List.set_cons_succ, List.take_succ_cons, List.cons_append]
      rw [ih]
      simpa using h

theorem Keys.push_some {k k' : Keys} {key : Nat} (h : k.push key = some k') :
    k.size < KEY_STACK_LEN ∧ k' = { size := k.size + 1, stack := k.stack.set k.size key } := by
  unfold Keys.push at h
  by_cases hlt : k.size < KEY_STACK_LEN
  · simp [hlt] at h
    exact ⟨hlt, h.symm⟩
  · simp [hlt] at h

theorem Keys.push_none {k : Keys} {key : Nat} (h : ¬ k.size < KEY_STACK_LEN) :
    k.push key = none := by
  unfold Keys.push
  simp [h]

theorem Keys.push_wf {k k' : Keys} {key : Nat} (hwf : k.wf) (h : k.push key = some k') :
    k'.wf := by
  obtain ⟨-, rfl⟩ := Keys.push_some h
  unfold Keys.wf at *
  simpa using hwf

theorem Keys.push_toList {k k' : Keys} {key : Nat} (hwf : k.wf) (h : k.push key = some k') :
    k'.toList = k.toList ++ [key] := by
  obtain ⟨hlt, rfl⟩ := Keys.push_some h
  unfold Keys.toList
  exact take_set_eq_take_append _ _ _ (by unfold Keys.wf at hwf; omega)

theorem Keys.push_size {k k' : Keys} {key : Nat} (h : k.push key = some k') :
    k'.size = k.size + 1 := by
  obtain ⟨-, rfl⟩ := Keys.push_some h
  rfl

theorem set_append_cons {α : Type} (pre suf : List α) (w w' : α) :
    (pre ++ w :: suf).set pre.length w' = pre ++ w' :: suf := by
  induction pre with
  | nil => simp
  | cons x xs ih => simp [ih]

theorem removeLeftovers_done {idx : Nat} {level : List VDomNode}
    (h : level.length ≤ idx) : removeLeftovers idx level = (level, []) := by
  unfold removeLeftovers
  cases hl : level with
  | nil => simp [removeLeftoversAux]
  | cons x xs =>
    unfold removeLeftoversAux
    have : ¬ idx < level.length := by omega
    simp_all

/-! ### Characterizations of the matching scan and the diff loops -/

theorem scanMatch_none_iff (ks : Keys) (v : LNodeValue) (lvl : List VDomNode) :
    scanMatch ks v lvl = none ↔ ∀ u ∈ lvl, ¬(u.keys = ks ∧ u.value = v) := by
  induction lvl with
  | nil => simp [scanMatch]
  | cons w rest ih =>
    by_cases h : w.keys = ks ∧ w.value = v
    · simp [scanMatch, h]
    · simp only [scanMatch, if_neg h, Option.map_eq_none', List.mem_cons]
      constructor
      · intro hr u hu
        rcases hu with rfl | hu
        · exact h
        · exact (ih.mp hr) u hu
      · intro hall
        exact ih.mpr (fun u hu => hall u (Or.inr hu))

theorem scanMatch_some (ks : Keys) (v : LNodeValue) (lvl : List VDomNode)
    (i : Nat) (w : VDomNode) (h : scanMatch ks v lvl = some (i, w)) :
    lvl[i]? = some w ∧ w.keys = ks ∧ w.value = v ∧
      ∀ j, j < i → ∀ u, lvl[j]? = some u → ¬(u.keys = ks ∧ u.value = v) := by
  induction lvl generalizing i with
  | nil => simp [scanMatch] at h
  | cons x rest ih =>
    by_cases hx : x.keys = ks ∧ x.value = v
    · simp only [scanMatch, if_pos hx, Option.some_inj, Prod.mk.injEq] at h
      obtain ⟨rfl, rfl⟩ := h
      refine ⟨by simp, hx.1, hx.2, ?_⟩
      intro j hj
      omega
    · simp only [scanMatch, if_neg hx, Option.map_eq_some'] at h
      obtain ⟨⟨i', w'⟩, hr, heq⟩ := h
      simp only [Prod.mk.injEq] at heq
      obtain ⟨rfl, rfl⟩ := heq
      obtain ⟨h1, h2, h3, h4⟩ := ih i' hr
      refine ⟨by simpa using h1, h2, h3, ?_⟩
      intro j hj u hu
      cases j with
      | zero =>
        simp only [List.getElem?_cons_zero, Option.some_inj] at hu
        subst hu
        exact hx
      | succ j' =>
        simp only [List.getElem?_cons_succ] at hu
        exact h4 j' (by omega) u hu

theorem diffRemoveListeners_noop (elem : Nat) (cand : List LListener)
    (vls : List VListener)
    (h : ∀ l ∈ vls, ∃ c ∈ cand, c.ptr = l.ptr ∧ c.eventType = l.eventType) :
    diffRemoveListeners elem cand vls = (vls, []) := by
  induction vls with
  | nil => rfl
  | cons l rest ih =>
    obtain ⟨c, hc, h1, h2⟩ := h l (List.mem_cons_self l rest)
    have hany : cand.any (fun c => c.ptr = l.ptr && c.eventType = l.eventType) = true :=
      List.any_eq_true.mpr ⟨c, hc, by simp [h1, h2]⟩
    simp [diffRemoveListeners, hany, ih (fun x hx => h x (List.mem_cons_of_mem l hx))]

theorem addNewListeners_noop (elem : Nat) (ks : Keys) (cand : List LListener)
    (vls : List VListener) (nid : Nat)
    (h : ∀ c ∈ cand, ∃ x ∈ vls, x.ptr = c.ptr ∧ x.eventType = c.eventType) :
    addNewListeners elem ks cand vls nid = (vls, nid, []) := by
  induction cand with
  | nil => rfl
  | cons c rest ih =>
    obtain ⟨x, hx, h1, h2⟩ := h c (List.mem_cons_self c rest)
    have hany : vls.any (fun x => x.ptr = c.ptr && x.eventType = c.eventType) = true :=
      List.any_eq_true.mpr ⟨x, hx, by simp [h1, h2]⟩
    simp [addNewListeners, hany, ih (fun y hy => h y (List.mem_cons_of_mem c hy))]

theorem diffRemoveAttrs_noop (elem : Nat) (cand vas : List (String × String))
    (h : ∀ a ∈ vas, a ∈ cand) :
    diffRemoveAttrs elem cand vas = (vas, []) := by
  induction vas with
  | nil => rfl
  | cons a rest ih =>
    have hany : cand.any (fun b => b = a) = true :=
      List.any_eq_true.mpr ⟨a, h a (List.mem_cons_self a rest), by simp⟩
    simp [diffRemoveAttrs, hany, ih (fun x hx => h x (List.mem_cons_of_mem a hx))]

theorem addNewAttrs_noop (elem : Nat) (cand vas : List (String × String))
    (h : ∀ a ∈ cand, a ∈ vas) :
    addNewAttrs elem cand vas = (vas, []) := by
  induction cand with
  | nil => rfl
  | cons a rest ih =>
    have hc : vas.contains a = true := List.elem_iff.mpr (h a (List.mem_cons_self a rest))
    simp [addNewAttrs, hc, ih (fun x hx => h x (List.mem_cons_of_mem a hx))]
    exact h a (List.mem_cons_self a rest)

theorem diffRemoveAttrs_spec (elem : Nat) (cand vas : List (String × String)) :
    diffRemoveAttrs elem cand vas =
      (vas.filter (fun a => decide (a ∈ cand)),
       (vas.filter (fun a => decide (a ∉ cand))).map
         (fun a => HostCall.removeAttribute elem a.1)) := by
  induction vas with
  | nil => rfl
  | cons a rest ih =>
    by_cases h : a ∈ cand
    · have hany : cand.any (fun b => b = a) = true :=
        List.any_eq_true.mpr ⟨a, h, by simp⟩
      simp [diffRemoveAttrs, hany, ih, List.filter_cons, h]
    · have hany : cand.any (fun b => b = a) = false := by
        simp only [List.any_eq_false]
        intro b hb
        simp only [decide_eq_true_eq]
        intro hba
        exact h (hba ▸ hb)
      simp [diffRemoveAttrs, hany, ih, List.filter_cons, h]

theorem addNewAttrs_spec (elem : Nat) (cand vas : List (String × String))
    (hnd : cand.Nodup) :
    addNewAttrs elem cand vas =
      (vas ++ cand.filter (fun a => decide (a ∉ vas)),
       (cand.filter (fun a => decide (a ∉ vas))).map
         (fun a => HostCall.setAttribute elem a.1 a.2)) := by
  induction cand generalizing vas with
  | nil => simp [addNewAttrs]
  | cons a rest ih =>
    have hnd' : rest.Nodup := hnd.of_cons
    have hna : a ∉ rest := (List.nodup_cons.mp hnd).1
    by_cases h : a ∈ vas
    · have hc : vas.contains a = true := List.elem_iff.mpr h
      simp [addNewAttrs, hc, ih vas hnd', List.filter_cons, h]
    · have hc : ¬ vas.contains a = true := fun hcc => h (List.elem_iff.mp hcc)
      have hfilter : rest.filter (fun b => decide (b ∉ vas ++ [a]))
          = rest.filter (fun b => decide (b ∉ vas)) := by
        apply List.filter_congr
        intro b hb
        have hba : b ≠ a := fun hba => hna (hba ▸ hb)
        simp [hba]
      simp only [addNewAttrs, hc, if_false, Bool.false_eq_true, ih (vas ++ [a]) hnd', hfilter,
        List.filter_cons, h]
      simp [List.append_assoc]

theorem diffRemoveListeners_kept_iff (elem : Nat) (cand : List LListener)
    (vls : List VListener) (l : VListener) :
    l ∈ (diffRemoveListeners elem cand vls).1 ↔
      l ∈ vls ∧ ∃ c ∈ cand, c.ptr = l.ptr ∧ c.eventType = l.eventType := by
  induction vls with
  | nil => simp [diffRemoveListeners]
  | cons x rest ih =>
    by_cases h : cand.any (fun c => c.ptr = x.ptr && c.eventType = x.eventType) = true
    · have hex : ∃ c ∈ cand, c.ptr = x.ptr ∧ c.eventType = x.eventType := by
        obtain ⟨c, hc, hcc⟩ := List.any_eq_true.mp h
        exact ⟨c, hc, by simpa using hcc⟩
      simp only [diffRemoveListeners, h, if_true, List.mem_cons, ih]
      constructor
      · rintro (rfl | ⟨hm, hc⟩)
        · exact ⟨Or.inl rfl, hex⟩
        · exact ⟨Or.inr hm, hc⟩
      · rintro ⟨rfl | hm, hc⟩
        · exact Or.inl rfl
        · exact Or.inr ⟨hm, hc⟩
    · have hnex : ¬ ∃ c ∈ cand, c.ptr = x.ptr ∧ c.eventType = x.eventType := by
        intro ⟨c, hc, h1, h2⟩
        exact h (List.any_eq_true.mpr ⟨c, hc, by simp [h1, h2]⟩)
      simp only [diffRemoveListeners, h, if_false, Bool.false_eq_true, ih, List.mem_cons]
      constructor
      · rintro ⟨hm, hc⟩
        exact ⟨Or.inr hm, hc⟩
      · rintro ⟨rfl | hm, hc⟩
        · exact absurd hc hnex
        · exact ⟨hm, hc⟩

theorem diffRemoveListeners_calls (elem : Nat) (cand : List LListener)
    (vls : List VListener) :
    (diffRemoveListeners elem cand vls).2 =
      (vls.filter (fun l =>
        !cand.any (fun c => c.ptr = l.ptr && c.eventType = l.eventType))).map
        (fun l => HostCall.removeListener elem l.subId l.eventType) := by
  induction vls with
  | nil => rfl
  | cons x rest ih =>
    by_cases h : cand.any (fun c => c.ptr = x.ptr && c.eventType = x.eventType) = true
    · simp [diffRemoveListeners, h, ih, List.filter_cons]
    · simp only [Bool.not_eq_true] at h
      simp [diffRemoveListeners, h, ih, List.filter_cons]

/-! ### Claim theorems -/

/-- C7 counterexample: with_key stores the key cast to u32
(src/dom_node.rs line 82), so for the concrete key 2^32 the resulting
node's key() is Some 0, not Some of the given key as the claim states. -/
theorem with_key_truncation_counterexample :
    (withKey (LNode.node (LNodeValue.text "t") none [] [] []) (2 ^ 32)).map LNode.key
        = some (some 0) ∧
      (withKey (LNode.node (LNodeValue.text "t") none [] [] []) (2 ^ 32)).map LNode.key
        ≠ some (some (2 ^ 32)) := by
  constructor
  · decide
  · decide

/-- C7 (amended): calling with_key on a node whose key() is already Some
panics (modelled as none); calling it on a node whose key() is None
succeeds and returns a node whose key() is Some of the given key reduced
modulo 2^32 (the u32 cast), hence Some of the given key whenever the key
is below 2^32. -/
theorem with_key_amended (n : LNode) (key : Nat) :
    (n.key ≠ none → withKey n key = none) ∧
    (n.key = none → ∃ m, withKey n key = some m ∧ m.key = some (key % 2 ^ 32)) ∧
    (n.key = none → key < 2 ^ 32 → ∃ m, withKey n key = some m ∧ m.key = some key) := by
  obtain ⟨v, k, attrs, lis, children⟩ := n
  cases k with
  | none =>
    refine ⟨fun h => absurd rfl h, fun _ => ⟨_, rfl, rfl⟩, fun _ hlt => ⟨_, rfl, ?_⟩⟩
    simp only [LNode.key, Option.some_inj]
    omega
  | some k0 =>
    refine ⟨fun _ => rfl, fun h => ?_, fun h => ?_⟩ <;> simp [LNode.key] at h

/-- C7 witness: with_key with key 5 on an unkeyed text node yields
key() = Some 5. -/
theorem with_key_amended_witness :
    (LNode.node (LNodeValue.text "t") none [] [] []).key = none ∧
      ∃ m, withKey (LNode.node (LNodeValue.text "t") none [] [] []) 5 = some m ∧
        m.key = some 5 :=
  ⟨rfl, (with_key_amended (LNode.node (LNodeValue.text "t") none [] [] []) 5).2.2
    rfl (by decide)⟩

/-- C8: pushing onto a Keys or KeyStack already holding the full 32
elements returns no value (the debug_assert fails, or the array write is
out of bounds, and the process panics; no corrupted stack is ever
produced), while pushing below capacity succeeds with size exactly one
greater. -/
theorem key_stack_push_bounds (k : Keys) (s : KeyStack) (key : Nat) :
    (k.size = KEY_STACK_LEN → k.push key = none) ∧
    (k.size < KEY_STACK_LEN → ∃ k', k.push key = some k' ∧ k'.size = k.size + 1) ∧
    (s.size = KEY_STACK_LEN → s.push key = none) ∧
    (s.size < KEY_STACK_LEN → ∃ s', s.push key = some s' ∧ s'.size = s.size + 1) := by
  refine ⟨fun h => ?_, fun h => ?_, fun h => ?_, fun h => ?_⟩
  · unfold Keys.push
    simp [h]
  · unfold Keys.push
    simp [h]
  · unfold KeyStack.push
    simp [h]
  · unfold KeyStack.push
    simp [h]

/-- C8 witness: a full 32-element Keys rejects a push; the empty Keys
accepts one, growing to size 1. -/
theorem key_stack_push_bounds_witness :
    ((Keys.mk 32 (List.replicate 32 0)).size = KEY_STACK_LEN ∧
        (Keys.mk 32 (List.replicate 32 0)).push 7 = none) ∧
      (Keys.new.size < KEY_STACK_LEN ∧
        ∃ k', Keys.new.push 7 = some k' ∧ k'.size = Keys.new.size + 1) :=
  ⟨⟨by decide,
    (key_stack_push_bounds (Keys.mk 32 (List.replicate 32 0)) KeyStack.new 7).1 (by decide)⟩,
   ⟨by decide,
    (key_stack_push_bounds Keys.new KeyStack.new 7).2.1 (by decide)⟩⟩

/-- C10: Keys::push is persistent and order-preserving.  The receiver is
taken by shared reference in the source and the embedding is pure, so the
receiver is unchanged by construction; for any well-formed Keys below
capacity the result exists, has size one greater, stays well-formed, and
iterating it from bottom to top yields the receiver's sequence followed
by the new key. -/
theorem keys_push_functional (k : Keys) (key : Nat) (hwf : k.wf)
    (h : k.size < KEY_STACK_LEN) :
    ∃ k', k.push key = some k' ∧ k'.size = k.size + 1 ∧ k'.wf ∧
      k'.toList = k.toList ++ [key] := by
  have hp : k.push key = some { size := k.size + 1, stack := k.stack.set k.size key } := by
    unfold Keys.push
    simp [h]
  exact ⟨_, hp, Keys.push_size hp, Keys.push_wf hwf hp, Keys.push_toList hwf hp⟩

/-- C10 witness: pushing 3 then observing the Keys built from new and a
push of 9. -/
theorem keys_push_functional_witness :
    ∃ k1, Keys.new.push 9 = some k1 ∧ k1.wf ∧ k1.size < KEY_STACK_LEN ∧
      ∃ k2, k1.push 3 = some k2 ∧ k2.size = k1.size + 1 ∧ k2.wf ∧
        k2.toList = k1.toList ++ [3] := by
  refine ⟨{ size := 1, stack := (List.replicate 32 0).set 0 9 }, by decide, by decide, by decide, ?_⟩
  exact keys_push_functional _ 3 (by decide) (by decide)

/-- C9 counterexample: the HTML writer emits attribute values verbatim;
for the concrete value containing a double quote the emitted HTML
contains the raw quote unescaped inside the surrounding quotes, so the
claim that the value is emitted double-quote-escaped is false. -/
theorem html_attr_quote_unescaped_counterexample :
    writeHtml (HNode.element "div" [("attr", "a\"b")] []) = "<div attr=\"a\"b\"></div>" ∧
      List.IsInfix ("=\"a\"b\"").toList
        (writeHtml (HNode.element "div" [("attr", "a\"b")] [])).toList :=
  ⟨rfl, by decide⟩

theorem string_toList_append (a b : String) : (a ++ b).toList = a.toList ++ b.toList :=
  String.data_append a b

theorem writeAttrs_chunk_isInfix (attrs : List (String × String)) (nm v : String)
    (h : (nm, v) ∈ attrs) :
    List.IsInfix (" " ++ nm ++ "=\"" ++ v ++ "\"").toList (writeAttrs attrs).toList := by
  induction attrs with
  | nil => simp at h
  | cons a rest ih =>
    rcases List.mem_cons.mp h with heq | hmem
    · subst heq
      have hw : writeAttrs ((nm, v) :: rest)
          = (" " ++ nm ++ "=\"" ++ v ++ "\"") ++ writeAttrs rest := rfl
      rw [hw, string_toList_append]
      exact (List.prefix_append _ _).isInfix
    · refine List.IsInfix.trans (ih hmem) ?_
      have hw : writeAttrs (a :: rest)
          = (" " ++ a.1 ++ "=\"" ++ a.2 ++ "\"") ++ writeAttrs rest := rfl
      rw [hw, string_toList_append]
      exact (List.suffix_append _ _).isInfix

/-- C9 (amended): the HTML writer's output is a plain nested-tag string
in which every attribute is emitted as a space, its name, and its value
verbatim between double quotes; no escaping is applied, so a double
quote inside a value appears unescaped in the output. -/
theorem html_attr_values_verbatim (tag : String) (attrs : List (String × String))
    (children : List HNode) (nm v : String) (h : (nm, v) ∈ attrs) :
    List.IsInfix (" " ++ nm ++ "=\"" ++ v ++ "\"").toList
      (writeHtml (HNode.element tag attrs children)).toList := by
  refine List.IsInfix.trans (writeAttrs_chunk_isInfix attrs nm v h) ?_
  unfold writeHtml
  repeat rw [string_toList_append]
  refine ⟨("<" ++ tag).toList, (">" ++ writeHtmlList children ++ "</" ++ tag ++ ">").toList, ?_⟩
  repeat rw [string_toList_append]
  simp [List.append_assoc]

/-- C9 witness: the verbatim chunk for the attribute of a concrete
element appears in its emitted HTML. -/
theorem html_attr_values_verbatim_witness :
    ("x", "1") ∈ [("x", "1")] ∧
      List.IsInfix (" " ++ "x" ++ "=\"" ++ "1" ++ "\"").toList
        (writeHtml (HNode.element "div" [("x", "1")] [])).toList :=
  ⟨by decide, html_attr_values_verbatim "div" [("x", "1")] [] "x" "1" (by decide)⟩

/-- C4: attribute diff minimality.  A shadow attribute is removed iff no
candidate attribute has the same name and value; a candidate attribute
triggers set_attribute iff it is not already present with the same value
in the running list; and the concrete x, y versus y, z scenario issues
exactly remove_attribute x and set_attribute z and no call for y. -/
theorem attribute_diff_minimality (elem : Nat) (cand vas : List (String × String))
    (hnd : cand.Nodup) :
    (diffRemoveAttrs elem cand vas =
      (vas.filter (fun a => decide (a ∈ cand)),
       (vas.filter (fun a => decide (a ∉ cand))).map
         (fun a => HostCall.removeAttribute elem a.1))) ∧
    (addNewAttrs elem cand vas =
      (vas ++ cand.filter (fun a => decide (a ∉ vas)),
       (cand.filter (fun a => decide (a ∉ vas))).map
         (fun a => HostCall.setAttribute elem a.1 a.2))) ∧
    reRender (LNode.node (LNodeValue.tag "div") none [("x", "1"), ("y", "2")] [] [])
        (LNode.node (LNodeValue.tag "div") none [("y", "2"), ("z", "3")] [] [])
      = some ([HostCall.createElement "div" 1, HostCall.setAttribute 1 "x" "1",
               HostCall.setAttribute 1 "y" "2", HostCall.insertChild 0 0 1],
              [HostCall.removeAttribute 1 "x", HostCall.setAttribute 1 "z" "3"]) :=
  ⟨diffRemoveAttrs_spec elem cand vas, addNewAttrs_spec elem cand vas hnd, by
    simp [reRender, addNode, addNodes, extendKey, scanMatch, diffRemoveListeners, addNewListeners,
      diffRemoveAttrs, addNewAttrs, attachAllListeners, setAllAttrs, removeLeftovers,
      removeLeftoversAux, Keys.push, Keys.new, KEY_STACK_LEN, Keys.toList,
      VDomNode.keys, VDomNode.value, VDomNode.webElement, VDomNode.attributes,
      VDomNode.listeners, VDomNode.children, List.set, List.replicate]⟩

/-- C4 witness: the removal characterization applied to the concrete
shadow attributes x, y against candidate y, z. -/
theorem attribute_diff_minimality_witness :
    ([("y", "2"), ("z", "3")] : List (String × String)).Nodup ∧
      diffRemoveAttrs 1 [("y", "2"), ("z", "3")] [("x", "1"), ("y", "2")]
        = ([("x", "1"), ("y", "2")].filter
            (fun a => decide (a ∈ ([("y", "2"), ("z", "3")] : List (String × String)))),
           ([("x", "1"), ("y", "2")].filter
            (fun a => decide (a ∉ ([("y", "2"), ("z", "3")] : List (String × String))))).map
            (fun a => HostCall.removeAttribute 1 a.1)) :=
  ⟨by decide,
   (attribute_diff_minimality 1 [("y", "2"), ("z", "3")] [("x", "1"), ("y", "2")]
     (by decide)).1⟩

/-- C6: listener identity.  An attached shadow listener is retained iff
some candidate listener has the same handler pointer and event type
(never behavioural equality: the produced message plays no part); the
removal calls are exactly those for the non-retained listeners; and
replacing a handler by a distinct pointer with the same event type
removes the old subscription and adds a new one. -/
theorem listener_identity (elem : Nat) (cand : List LListener) (vls : List VListener)
    (l : VListener) :
    (l ∈ (diffRemoveListeners elem cand vls).1 ↔
      l ∈ vls ∧ ∃ c ∈ cand, c.ptr = l.ptr ∧ c.eventType = l.eventType) ∧
    ((diffRemoveListeners elem cand vls).2 =
      (vls.filter (fun x =>
        !cand.any (fun c => c.ptr = x.ptr && c.eventType = x.eventType))).map
        (fun x => HostCall.removeListener elem x.subId x.eventType)) ∧
    reRender (LNode.node (LNodeValue.tag "div") none [] [⟨1, "click"⟩] [])
        (LNode.node (LNodeValue.tag "div") none [] [⟨2, "click"⟩] [])
      = some ([HostCall.createElement "div" 1,
               HostCall.addListener 1 "click" 1 Keys.new 2, HostCall.insertChild 0 0 1],
              [HostCall.removeListener 1 2 "click",
               HostCall.addListener 1 "click" 2 Keys.new 3]) :=
  ⟨diffRemoveListeners_kept_iff elem cand vls l, diffRemoveListeners_calls elem cand vls, by
    simp [reRender, addNode, addNodes, extendKey, scanMatch, diffRemoveListeners, addNewListeners,
      diffRemoveAttrs, addNewAttrs, attachAllListeners, setAllAttrs, removeLeftovers,
      removeLeftoversAux, Keys.push, Keys.new, KEY_STACK_LEN, Keys.toList,
      VDomNode.keys, VDomNode.value, VDomNode.webElement, VDomNode.attributes,
      VDomNode.listeners, VDomNode.children, List.set, List.replicate]⟩

/-- C1 counterexample: a text node whose content changed does not match
the existing shadow text node (the scan finds no match because the value
comparison includes the content), and reconciling the concrete tree with
text changed from x to y issues create_text, insert_child and
remove_node, contradicting the claimed in-place content update with no
create/insert/remove. -/
theorem text_change_counterexample :
    scanMatch Keys.new (LNodeValue.text "y")
        [VDomNode.mk (LNodeValue.text "x") Keys.new 2 [] [] []] = none ∧
    reRender
        (LNode.node (LNodeValue.tag "div") none [] []
          [LNode.node (LNodeValue.text "x") none [] [] []])
        (LNode.node (LNodeValue.tag "div") none [] []
          [LNode.node (LNodeValue.text "y") none [] [] []])
      = some ([HostCall.createElement "div" 1, HostCall.createText "x" 2,
               HostCall.insertChild 1 0 2, HostCall.insertChild 0 0 1],
              [HostCall.createText "y" 3, HostCall.insertChild 1 0 3,
               HostCall.removeNode 2]) :=
  ⟨by rfl, by
    simp [reRender, addNode, addNodes, extendKey, scanMatch, diffRemoveListeners, addNewListeners,
      diffRemoveAttrs, addNewAttrs, attachAllListeners, setAllAttrs, removeLeftovers,
      removeLeftoversAux, Keys.push, Keys.new, KEY_STACK_LEN, Keys.toList,
      VDomNode.keys, VDomNode.value, VDomNode.webElement, VDomNode.attributes,
      VDomNode.listeners, VDomNode.children, List.set, List.replicate]⟩

/-- C1 (amended): in the child-matching step a candidate matches a shadow
node iff their accumulated key paths are equal and their values are
equal, where a text node's value includes its content; the scan takes
the first such node at or after the cursor.  A text node whose content
changed therefore does not match: it is created and inserted afresh and
the old shadow node is removed, with no in-place content update. -/
theorem match_requires_equal_value (ks : Keys) (v : LNodeValue) (lvl : List VDomNode)
    (i : Nat) (w : VDomNode) :
    (scanMatch ks v lvl = none ↔ ∀ u ∈ lvl, ¬(u.keys = ks ∧ u.value = v)) ∧
    (scanMatch ks v lvl = some (i, w) →
      lvl[i]? = some w ∧ w.keys = ks ∧ w.value = v ∧
        ∀ j, j < i → ∀ u, lvl[j]? = some u → ¬(u.keys = ks ∧ u.value = v)) ∧
    reRender
        (LNode.node (LNodeValue.tag "div") none [] []
          [LNode.node (LNodeValue.text "p") none [] [] []])
        (LNode.node (LNodeValue.tag "div") none [] []
          [LNode.node (LNodeValue.text "q") none [] [] []])
      = some ([HostCall.createElement "div" 1, HostCall.createText "p" 2,
               HostCall.insertChild 1 0 2, HostCall.insertChild 0 0 1],
              [HostCall.createText "q" 3, HostCall.insertChild 1 0 3,
               HostCall.removeNode 2]) :=
  ⟨scanMatch_none_iff ks v lvl, scanMatch_some ks v lvl i w, by
    simp [reRender, addNode, addNodes, extendKey, scanMatch, diffRemoveListeners, addNewListeners,
      diffRemoveAttrs, addNewAttrs, attachAllListeners, setAllAttrs, removeLeftovers,
      removeLeftoversAux, Keys.push, Keys.new, KEY_STACK_LEN, Keys.toList,
      VDomNode.keys, VDomNode.value, VDomNode.webElement, VDomNode.attributes,
      VDomNode.listeners, VDomNode.children, List.set, List.replicate]⟩

/-- C1 witness: the matching characterization applied to a concrete
matching scan. -/
theorem match_requires_equal_value_witness :
    scanMatch Keys.new (LNodeValue.text "a")
        [VDomNode.mk (LNodeValue.text "a") Keys.new 2 [] [] []]
      = some (0, VDomNode.mk (LNodeValue.text "a") Keys.new 2 [] [] []) ∧
    ([VDomNode.mk (LNodeValue.text "a") Keys.new 2 [] [] []][0]?
        = some (VDomNode.mk (LNodeValue.text "a") Keys.new 2 [] [] []) ∧
      (VDomNode.mk (LNodeValue.text "a") Keys.new 2 [] [] []).keys = Keys.new ∧
      (VDomNode.mk (LNodeValue.text "a") Keys.new 2 [] [] []).value = LNodeValue.text "a" ∧
      ∀ j, j < 0 → ∀ u,
        ([VDomNode.mk (LNodeValue.text "a") Keys.new 2 [] [] []][j]? = some u →
          ¬(u.keys = Keys.new ∧ u.value = LNodeValue.text "a"))) :=
  ⟨by rfl,
   (match_requires_equal_value Keys.new (LNodeValue.text "a")
     [VDomNode.mk (LNodeValue.text "a") Keys.new 2 [] [] []] 0
     (VDomNode.mk (LNodeValue.text "a") Keys.new 2 [] [] [])).2.1 (by rfl)⟩

/-- C2 counterexample: reconciling keyed children a, b, c against a, c
(key 1 removed) issues a move_child host call in addition to the
remove_node, contradicting the claim that no structural mutation other
than the single remove_node occurs. -/
theorem keyed_deletion_move_counterexample :
    HostCall.moveChild 1 2 1 ∈
      ((reRender
        (LNode.node (LNodeValue.tag "div") none [] []
          [LNode.node (LNodeValue.text "a") (some 0) [] [] [],
           LNode.node (LNodeValue.text "b") (some 1) [] [] [],
           LNode.node (LNodeValue.text "c") (some 2) [] [] []])
        (LNode.node (LNodeValue.tag "div") none [] []
          [LNode.node (LNodeValue.text "a") (some 0) [] [] [],
           LNode.node (LNodeValue.text "c") (some 2) [] [] []])).getD ([], [])).2 := by
  simp [reRender, addNode, addNodes, extendKey, scanMatch, diffRemoveListeners, addNewListeners,
    diffRemoveAttrs, addNewAttrs, attachAllListeners, setAllAttrs, removeLeftovers,
    removeLeftoversAux, Keys.push, Keys.new, KEY_STACK_LEN, Keys.toList,
    VDomNode.keys, VDomNode.value, VDomNode.webElement, VDomNode.attributes,
    VDomNode.listeners, VDomNode.children, List.set, List.replicate]

/-- C2 (amended): starting from the shadow state for keyed children
a (key 0), b (key 1), c (key 2), reconciling against a, c issues exactly
one remove_node, for the node keyed 1 (host node 3, created for b in the
first pass), together with exactly one move_child repositioning the
matched node keyed 2 from shadow index 2 to cursor index 1; there is no
insert_child and no create call in the second pass. -/
theorem keyed_deletion_trace :
    reRender
        (LNode.node (LNodeValue.tag "div") none [] []
          [LNode.node (LNodeValue.text "a") (some 0) [] [] [],
           LNode.node (LNodeValue.text "b") (some 1) [] [] [],
           LNode.node (LNodeValue.text "c") (some 2) [] [] []])
        (LNode.node (LNodeValue.tag "div") none [] []
          [LNode.node (LNodeValue.text "a") (some 0) [] [] [],
           LNode.node (LNodeValue.text "c") (some 2) [] [] []])
      = some ([HostCall.createElement "div" 1,
               HostCall.createText "a" 2, HostCall.insertChild 1 0 2,
               HostCall.createText "b" 3, HostCall.insertChild 1 1 3,
               HostCall.createText "c" 4, HostCall.insertChild 1 2 4,
               HostCall.insertChild 0 0 1],
              [HostCall.moveChild 1 2 1, HostCall.removeNode 3]) := by
  simp [reRender, addNode, addNodes, extendKey, scanMatch, diffRemoveListeners, addNewListeners,
    diffRemoveAttrs, addNewAttrs, attachAllListeners, setAllAttrs, removeLeftovers,
    removeLeftoversAux, Keys.push, Keys.new, KEY_STACK_LEN, Keys.toList,
    VDomNode.keys, VDomNode.value, VDomNode.webElement, VDomNode.attributes,
    VDomNode.listeners, VDomNode.children, List.set, List.replicate]

/-! ### Listener key-path bookkeeping (towards C5) -/

theorem listenerCallData_addNewListeners (elem : Nat) (ks : Keys) (cand : List LListener)
    (vls : List VListener) (nid : Nat) (d : Nat × String × List Nat)
    (hd : d ∈ ((addNewListeners elem ks cand vls nid).2.2).filterMap listenerCallData) :
    ∃ c ∈ cand, d = (c.ptr, c.eventType, ks.toList) := by
  induction cand generalizing vls nid with
  | nil => simp [addNewListeners] at hd
  | cons c rest ih =>
    by_cases h : vls.any (fun x => x.ptr = c.ptr && x.eventType = c.eventType) = true
    · simp only [addNewListeners, h, if_true] at hd
      obtain ⟨c', hc', hd'⟩ := ih _ _ hd
      exact ⟨c', List.mem_cons_of_mem c hc', hd'⟩
    · simp only [Bool.not_eq_true] at h
      simp only [addNewListeners, h, Bool.false_eq_true, if_false,
        List.filterMap_cons, listenerCallData] at hd
      rcases List.mem_cons.mp hd with rfl | hd'
      · exact ⟨c, List.mem_cons_self c rest, rfl⟩
      · obtain ⟨c', hc', hdd⟩ := ih _ _ hd'
        exact ⟨c', List.mem_cons_of_mem c hc', hdd⟩

theorem listenerCallData_attachAllListeners (elem : Nat) (ks : Keys) (cand : List LListener)
    (nid : Nat) (d : Nat × String × List Nat)
    (hd : d ∈ ((attachAllListeners elem ks cand nid).2.2).filterMap listenerCallData) :
    ∃ c ∈ cand, d = (c.ptr, c.eventType, ks.toList) := by
  induction cand generalizing nid with
  | nil => simp [attachAllListeners] at hd
  | cons c rest ih =>
    simp only [attachAllListeners, List.filterMap_cons, listenerCallData] at hd
    rcases List.mem_cons.mp hd with rfl | hd'
    · exact ⟨c, List.mem_cons_self c rest, rfl⟩
    · obtain ⟨c', hc', hdd⟩ := ih _ hd'
      exact ⟨c', List.mem_cons_of_mem c hc', hdd⟩

theorem listenerCallData_diffRemoveListeners (elem : Nat) (cand : List LListener)
    (vls : List VListener) :
    ((diffRemoveListeners elem cand vls).2).filterMap listenerCallData = [] := by
  rw [diffRemoveListeners_calls]
  induction (vls.filter (fun l =>
      !cand.any (fun c => c.ptr = l.ptr && c.eventType = l.eventType))) with
  | nil => rfl
  | cons x rest ih => simp [listenerCallData, ih]

theorem listenerCallData_diffRemoveAttrs (elem : Nat) (cand vas : List (String × String)) :
    ((diffRemoveAttrs elem cand vas).2).filterMap listenerCallData = [] := by
  induction vas with
  | nil => rfl
  | cons a rest ih =>
    by_cases h : cand.any (fun b => b = a) = true
    · simp [diffRemoveAttrs, h, ih]
    · simp only [Bool.not_eq_true] at h
      simp [diffRemoveAttrs, h, listenerCallData, ih]

theorem listenerCallData_addNewAttrs (elem : Nat) (cand vas : List (String × String)) :
    ((addNewAttrs elem cand vas).2).filterMap listenerCallData = [] := by
  induction cand generalizing vas with
  | nil => rfl
  | cons a rest ih =>
    by_cases h : a ∈ vas
    · simp [addNewAttrs, List.elem_iff, h, ih]
    · simp [addNewAttrs, List.elem_iff, h, listenerCallData, ih]

theorem listenerCallData_setAllAttrs (elem : Nat) (vas : List (String × String)) :
    ((setAllAttrs elem vas).2).filterMap listenerCallData = [] := by
  induction vas with
  | nil => rfl
  | cons a rest ih => simp [setAllAttrs, listenerCallData, ih]

theorem listenerCallData_removeLeftoversAux (fuel idx : Nat) (level : List VDomNode) :
    ((removeLeftoversAux fuel idx level).2).filterMap listenerCallData = [] := by
  induction fuel generalizing level with
  | zero => rfl
  | succ fuel ih =>
    by_cases h : idx < level.length
    · cases hl : level.getLast? with
      | none => simp [removeLeftoversAux, h, hl]
      | some w => simp [removeLeftoversAux, h, hl, listenerCallData, ih]
    · simp [removeLeftoversAux, h]
theorem extend_keys_toList {k keys : Keys} {key : Option Nat} (hwf : k.wf)
    (h : extendKey k key = some keys) :
    keys.wf ∧ extendPath k.toList key = keys.toList := by
  cases key with
  | none =>
    simp only [extendKey, Option.some_inj] at h
    subst h
    exact ⟨hwf, rfl⟩
  | some kk =>
    simp only [extendKey] at h
    exact ⟨Keys.push_wf hwf h, ((Keys.push_toList hwf h).symm : extendPath k.toList (some kk) = keys.toList)⟩

theorem sizeOf_children_lt (v : LNodeValue) (key : Option Nat)
    (attrs : List (String × String)) (lis : List LListener) (children : List LNode) :
    sizeOf children < sizeOf (LNode.node v key attrs lis children) := by
  simp only [LNode.node.sizeOf_spec]
  omega

theorem sizeOf_head_lt (n : LNode) (rest : List LNode) :
    sizeOf n < sizeOf (n :: rest) := by
  simp only [List.cons.sizeOf_spec]
  omega

theorem sizeOf_tail_lt (n : LNode) (rest : List LNode) :
    sizeOf rest < sizeOf (n :: rest) := by
  simp only [List.cons.sizeOf_spec]
  omega

theorem listenerCallData_removeLeftovers (idx : Nat) (level : List VDomNode) :
    ((removeLeftovers idx level).2).filterMap listenerCallData = [] :=
  listenerCallData_removeLeftoversAux _ _ _

theorem listenerCallData_createCall (v : LNodeValue) (i : Nat) :
    listenerCallData (match v with
      | LNodeValue.tag t => HostCall.createElement t i
      | LNodeValue.text s => HostCall.createText s i) = none := by
  cases v <;> rfl

theorem listener_paths_aux : ∀ m : Nat,
    (∀ n : LNode, sizeOf n ≤ m → ∀ (k : Keys) (p : Nat) (st st' : RState), k.wf →
      addNode k p st n = some st' →
      ∀ d ∈ st'.calls.filterMap listenerCallData,
        d ∈ st.calls.filterMap listenerCallData ∨ d ∈ listenerPaths k.toList n) ∧
    (∀ ns : List LNode, sizeOf ns ≤ m → ∀ (k : Keys) (p : Nat) (st st' : RState), k.wf →
      addNodes k p st ns = some st' →
      ∀ d ∈ st'.calls.filterMap listenerCallData,
        d ∈ st.calls.filterMap listenerCallData ∨ d ∈ listenerPathsList k.toList ns) := by
  intro m
  induction m using Nat.strong_induction_on with
  | _ m ih =>
    constructor
    · rintro ⟨v, key, attrs, lis, children⟩ hn k p st st' hwf hadd d hd
      have hchild : sizeOf children < m :=
        lt_of_lt_of_le (sizeOf_children_lt v key attrs lis children) hn
      simp only [addNode] at hadd
      split at hadd
      · exact absurd hadd (by simp)
      · rename_i keys hk
        obtain ⟨hkwf, hklist⟩ := extend_keys_toList hwf hk
        split at hadd
        · -- matched branch
          rename_i offw hscan
          split at hadd
          · exact absurd hadd (by simp)
          · rename_i cst hrec
            obtain rfl := (Option.some.inj hadd).symm
            simp only [List.filterMap_append, List.mem_append,
              listenerCallData_diffRemoveListeners, listenerCallData_diffRemoveAttrs,
              listenerCallData_addNewAttrs, listenerCallData_removeLeftovers,
              apply_ite Prod.snd, apply_ite (List.filterMap listenerCallData),
              List.filterMap_cons, List.filterMap_nil, listenerCallData, ite_self,
              List.not_mem_nil, or_false, false_or] at hd
            rcases hd with (hd | hd) | hd
            · exact Or.inl hd
            · obtain ⟨c, hc, rfl⟩ := listenerCallData_addNewListeners _ _ _ _ _ _ hd
              right
              simp only [listenerPaths, List.mem_append]
              left
              rw [hklist]
              exact List.mem_map.mpr ⟨c, hc, rfl⟩
            · have := (ih (sizeOf children) hchild).2 children le_rfl keys
                offw.2.webElement _ cst hkwf hrec d hd
              simp only [List.filterMap_nil, List.not_mem_nil, false_or] at this
              right
              simp only [listenerPaths, List.mem_append]
              right
              rw [hklist]
              exact this
        · -- fresh-insert branch
          rename_i hscan
          split at hadd
          · exact absurd hadd (by simp)
          · rename_i cst hrec
            obtain rfl := (Option.some.inj hadd).symm
            cases v <;>
            · simp only [List.filterMap_append, List.mem_append,
                listenerCallData_setAllAttrs, listenerCallData_removeLeftovers,
                List.filterMap_cons, List.filterMap_nil,
                listenerCallData, List.not_mem_nil, or_false, false_or] at hd
              rcases hd with (hd | hd) | hd
              · exact Or.inl hd
              · obtain ⟨c, hc, rfl⟩ := listenerCallData_attachAllListeners _ _ _ _ _ hd
                right
                simp only [listenerPaths, List.mem_append]
                left
                rw [hklist]
                exact List.mem_map.mpr ⟨c, hc, rfl⟩
              · have := (ih (sizeOf children) hchild).2 children le_rfl keys
                  st.nextId _ cst hkwf hrec d hd
                simp only [List.filterMap_nil, List.not_mem_nil, false_or] at this
                right
                simp only [listenerPaths, List.mem_append]
                right
                rw [hklist]
                exact this
    · rintro (_ | ⟨n, rest⟩) hn k p st st' hwf hadd d hd
      · simp only [addNodes, Option.some_inj] at hadd
        subst hadd
        exact Or.inl hd
      · have hhead : sizeOf n < m := lt_of_lt_of_le (sizeOf_head_lt n rest) hn
        have htail : sizeOf rest < m := lt_of_lt_of_le (sizeOf_tail_lt n rest) hn
        simp only [addNodes] at hadd
        split at hadd
        · exact absurd hadd (by simp)
        · rename_i st1 hstep
          have h2 := (ih (sizeOf rest) htail).2 rest le_rfl k p st1 st' hwf hadd d hd
          rcases h2 with h2 | h2
          · have h1 := (ih (sizeOf n) hhead).1 n le_rfl k p st st1 hwf hstep d h2
            rcases h1 with h1 | h1
            · exact Or.inl h1
            · right
              simp only [listenerPathsList, List.mem_append]
              exact Or.inl h1
          · right
            simp only [listenerPathsList, List.mem_append]
            exact Or.inr h2

/-- C5: key path propagation.  Every add_listener host call issued by a
reconciliation pass (from any shadow state) records, with its handler
pointer and event type, exactly the key path of the owning node: the
ordered keys of its keyed ancestors from the root down, its own key
included (a member of the specification-side listenerPaths of the tree).
For the concrete tree ul(key 2)[div[button(key 5) with a click listener]]
the single recorded path is [2, 5]; and dispatching a listener invokes
update with the state, the handler's message, and exactly the recorded
key sequence in order. -/
theorem key_path_propagation :
    (∀ (k : Keys) (p : Nat) (st st' : RState) (n : LNode), k.wf →
      addNode k p st n = some st' →
      ∀ d ∈ st'.calls.filterMap listenerCallData,
        d ∈ st.calls.filterMap listenerCallData ∨ d ∈ listenerPaths k.toList n) ∧
    ((addNode Keys.new 0 { level := [], idx := 0, nextId := 1, calls := [] }
        (LNode.node (LNodeValue.tag "ul") (some 2) [] []
          [LNode.node (LNodeValue.tag "div") none [] []
            [LNode.node (LNodeValue.tag "button") (some 5) [] [⟨77, "click"⟩] []]])).map
        (fun st => st.calls.filterMap listenerCallData)
      = some [(77, "click", [2, 5])]) ∧
    (listenerPaths []
        (LNode.node (LNodeValue.tag "ul") (some 2) [] []
          [LNode.node (LNodeValue.tag "div") none [] []
            [LNode.node (LNodeValue.tag "button") (some 5) [] [⟨77, "click"⟩] []]])
      = [(77, "click", [2, 5])]) ∧
    (∀ (S M : Type) (handler : Event → M) (k : Keys) (update : S → M → List Nat → S)
        (state : S) (ev : Event),
      handleListener handler (marshalKeys k) update state ev
        = update state (handler ev) k.toList) :=
  ⟨fun k p st st' n hwf hadd => (listener_paths_aux (sizeOf n)).1 n le_rfl k p st st' hwf hadd,
   by rfl,
   by rfl,
   fun S M handler k update state ev => rfl⟩

/-- C5 witness: the general key-path statement applied to a concrete
single-button reconciliation from the empty shadow state. -/
theorem key_path_propagation_witness :
    Keys.new.wf ∧
    addNode Keys.new 0 { level := [], idx := 0, nextId := 1, calls := [] }
        (LNode.node (LNodeValue.tag "b") none [] [⟨9, "click"⟩] [])
      = some { level := [VDomNode.mk (LNodeValue.tag "b") Keys.new 1 [] [⟨2, 9, "click"⟩] []],
               idx := 1, nextId := 3,
               calls := [HostCall.createElement "b" 1,
                         HostCall.addListener 1 "click" 9 Keys.new 2,
                         HostCall.insertChild 0 0 1] } ∧
    ((9, "click", ([] : List Nat)) ∈
        (({ level := [], idx := 0, nextId := 1, calls := [] } : RState)).calls.filterMap
          listenerCallData ∨
      (9, "click", ([] : List Nat)) ∈
        listenerPaths Keys.new.toList (LNode.node (LNodeValue.tag "b") none [] [⟨9, "click"⟩] [])) :=
  ⟨by decide, by rfl,
   key_path_propagation.1 Keys.new 0 { level := [], idx := 0, nextId := 1, calls := [] }
     { level := [VDomNode.mk (LNodeValue.tag "b") Keys.new 1 [] [⟨2, 9, "click"⟩] []],
       idx := 1, nextId := 3,
       calls := [HostCall.createElement "b" 1,
                 HostCall.addListener 1 "click" 9 Keys.new 2,
                 HostCall.insertChild 0 0 1] }
     (LNode.node (LNodeValue.tag "b") none [] [⟨9, "click"⟩] [])
     (by decide) (by rfl) (9, "click", ([] : List Nat)) (by decide)⟩

/-! ### No-op reconciliation (towards C3) -/

theorem representsListB_length (k : Keys) (vs : List VDomNode) (ns : List LNode)
    (h : representsListB k vs ns = true) : vs.length = ns.length := by
  induction ns generalizing vs with
  | nil =>
    cases vs with
    | nil => rfl
    | cons v vs' => simp [representsListB] at h
  | cons n ns' ih =>
    cases vs with
    | nil => simp [representsListB] at h
    | cons v vs' =>
      simp only [representsListB, Bool.and_eq_true] at h
      simp [ih vs' h.2]

theorem setAllAttrs_fst (elem : Nat) (vas : List (String × String)) :
    (setAllAttrs elem vas).1 = vas := by
  induction vas with
  | nil => rfl
  | cons a rest ih => simp [setAllAttrs, ih]

theorem attachAllListeners_fst_pr (elem : Nat) (ks : Keys) (cand : List LListener)
    (nid : Nat) :
    ((attachAllListeners elem ks cand nid).1).map VListener.pr = cand.map LListener.pr := by
  induction cand generalizing nid with
  | nil => rfl
  | cons c rest ih => simp [attachAllListeners, ih, VListener.pr, LListener.pr]

theorem mem_pairs_of_map_eq {vls : List VListener} {lis : List LListener}
    (h : vls.map VListener.pr = lis.map LListener.pr) :
    (∀ l ∈ vls, ∃ c ∈ lis, c.ptr = l.ptr ∧ c.eventType = l.eventType) ∧
    (∀ c ∈ lis, ∃ x ∈ vls, x.ptr = c.ptr ∧ x.eventType = c.eventType) := by
  constructor
  · intro l hl
    have : VListener.pr l ∈ lis.map LListener.pr := h ▸ List.mem_map_of_mem VListener.pr hl
    obtain ⟨c, hc, hpr⟩ := List.mem_map.mp this
    have h1 : c.ptr = l.ptr := congrArg Prod.fst hpr
    have h2 : c.eventType = l.eventType := congrArg Prod.snd hpr
    exact ⟨c, hc, h1, h2⟩
  · intro c hc
    have : LListener.pr c ∈ vls.map VListener.pr := h ▸ List.mem_map_of_mem LListener.pr hc
    obtain ⟨x, hx, hpr⟩ := List.mem_map.mp this
    have h1 : x.ptr = c.ptr := congrArg Prod.fst hpr
    have h2 : x.eventType = c.eventType := congrArg Prod.snd hpr
    exact ⟨x, hx, h1, h2⟩

theorem noop_aux : ∀ m : Nat,
    (∀ n : LNode, sizeOf n ≤ m → ∀ (k : Keys) (p nid : Nat) (cs : List HostCall)
        (pre rest : List VDomNode) (v : VDomNode),
      representsB k v n = true →
      addNode k p { level := pre ++ v :: rest, idx := pre.length, nextId := nid, calls := cs } n
        = some { level := pre ++ v :: rest, idx := pre.length + 1, nextId := nid, calls := cs }) ∧
    (∀ ns : List LNode, sizeOf ns ≤ m → ∀ (k : Keys) (p nid : Nat) (cs : List HostCall)
        (pre suf vs : List VDomNode),
      representsListB k vs ns = true →
      addNodes k p { level := pre ++ (vs ++ suf), idx := pre.length, nextId := nid, calls := cs } ns
        = some { level := pre ++ (vs ++ suf), idx := pre.length + ns.length, nextId := nid,
                 calls := cs }) := by
  intro m
  induction m using Nat.strong_induction_on with
  | _ m ih =>
    constructor
    · rintro ⟨val, key, attrs, lis, children⟩ hn k p nid cs pre rest
        ⟨vv, vks, vweb, vattrs, vlis, vchildren⟩ hrep
      have hchild : sizeOf children < m :=
        lt_of_lt_of_le (sizeOf_children_lt val key attrs lis children) hn
      simp only [representsB] at hrep
      cases hk : extendKey k key with
      | none => rw [hk] at hrep; simp at hrep
      | some keys =>
        rw [hk] at hrep
        simp only [Bool.and_eq_true, beq_iff_eq, VDomNode.keys, VDomNode.value,
          VDomNode.attributes, VDomNode.listeners, VDomNode.children] at hrep
        obtain ⟨⟨⟨⟨hkeys, hval⟩, hattrs⟩, hlis⟩, hch⟩ := hrep
        subst hkeys
        subst hval
        subst hattrs
        have h1 : diffRemoveListeners vweb lis vlis = (vlis, []) :=
          diffRemoveListeners_noop _ _ _ (mem_pairs_of_map_eq hlis).1
        have h2 : addNewListeners vweb vks lis vlis nid = (vlis, nid, []) :=
          addNewListeners_noop _ _ _ _ _ (mem_pairs_of_map_eq hlis).2
        have h3 : diffRemoveAttrs vweb vattrs vattrs = (vattrs, []) :=
          diffRemoveAttrs_noop _ _ _ (fun a ha => ha)
        have h4 : addNewAttrs vweb vattrs vattrs = (vattrs, []) :=
          addNewAttrs_noop _ _ _ (fun a ha => ha)
        have hrec := (ih (sizeOf children) hchild).2 children le_rfl vks vweb nid []
          [] [] vchildren hch
        simp only [List.nil_append, List.append_nil, List.length_nil, Nat.zero_add] at hrec
        have h6 : removeLeftovers children.length vchildren = (vchildren, []) :=
          removeLeftovers_done (le_of_eq (representsListB_length vks vchildren children hch))
        have hdrop : (pre ++ (VDomNode.mk vv vks vweb vattrs vlis vchildren) :: rest).drop
            pre.length = (VDomNode.mk vv vks vweb vattrs vlis vchildren) :: rest :=
          List.drop_left pre _
        simp [addNode, hk, hdrop, scanMatch, VDomNode.keys, VDomNode.value,
          VDomNode.webElement, VDomNode.listeners, VDomNode.attributes,
          VDomNode.children, h1, h2, h3, h4, hrec, h6, set_append_cons]
    · rintro (_ | ⟨n, rest⟩) hn k p nid cs pre suf vs hrep
      · cases vs with
        | nil => simp [addNodes]
        | cons v vs' => simp [representsListB] at hrep
      · cases vs with
        | nil => cases n; simp [representsListB] at hrep
        | cons v vs' =>
          have hhead : sizeOf n < m := lt_of_lt_of_le (sizeOf_head_lt n rest) hn
          have htail : sizeOf rest < m := lt_of_lt_of_le (sizeOf_tail_lt n rest) hn
          simp only [representsListB, Bool.and_eq_true] at hrep
          obtain ⟨h1, h2⟩ := hrep
          simp only [addNodes, List.cons_append]
          have hstep := (ih (sizeOf n) hhead).1 n le_rfl k p nid cs pre (vs' ++ suf) v h1
          rw [hstep]
          have htl := (ih (sizeOf rest) htail).2 rest le_rfl k p nid cs (pre ++ [v]) suf vs' h2
          simp only [List.append_assoc, List.singleton_append, List.length_append,
            List.length_singleton] at htl
          simpa [List.length_cons, Nat.add_assoc, Nat.add_comm, Nat.add_left_comm] using htl

theorem insert_aux : ∀ m : Nat,
    (∀ n : LNode, sizeOf n ≤ m → ∀ (k : Keys) (p : Nat) (st : RState),
      buildOk k n = true → st.idx = st.level.length →
      ∃ (v : VDomNode) (st' : RState),
        addNode k p st n = some st' ∧ st'.level = st.level ++ [v] ∧
          st'.idx = st.idx + 1 ∧ representsB k v n = true) ∧
    (∀ ns : List LNode, sizeOf ns ≤ m → ∀ (k : Keys) (p : Nat) (st : RState),
      buildOkList k ns = true → st.idx = st.level.length →
      ∃ (vs : List VDomNode) (st' : RState),
        addNodes k p st ns = some st' ∧ st'.level = st.level ++ vs ∧
          st'.idx = st.idx + ns.length ∧ representsListB k vs ns = true) := by
  intro m
  induction m using Nat.strong_induction_on with
  | _ m ih =>
    constructor
    · rintro ⟨v, key, attrs, lis, children⟩ hn k p st hb hidx
      have hchild : sizeOf children < m :=
        lt_of_lt_of_le (sizeOf_children_lt v key attrs lis children) hn
      simp only [buildOk] at hb
      cases hk : extendKey k key with
      | none => rw [hk] at hb; simp at hb
      | some keys =>
        rw [hk] at hb
        have hscan : scanMatch keys v (st.level.drop st.idx) = none := by
          rw [hidx, List.drop_length]
          rfl
        obtain ⟨vs, cst, hrc, hlvl, hidx', hrep⟩ :=
          (ih (sizeOf children) hchild).2 children le_rfl keys st.nextId
            { level := [], idx := 0,
              nextId := (attachAllListeners st.nextId keys lis (st.nextId + 1)).2.1,
              calls := [] } hb rfl
        simp only [List.nil_append] at hlvl
        have hlen : cst.level.length = children.length := by
          rw [hlvl, representsListB_length keys vs children hrep]
        have h6 : removeLeftovers cst.idx cst.level = (cst.level, []) :=
          removeLeftovers_done (by omega)
        simp only [addNode, hk, hscan, hrc, h6]
        refine ⟨VDomNode.mk v keys st.nextId (setAllAttrs st.nextId attrs).1
            (attachAllListeners st.nextId keys lis (st.nextId + 1)).1 cst.level,
          _, rfl, ?_, rfl, ?_⟩
        · simp only [hidx, List.insertIdx_length_self]
        · have hrep' : representsListB keys cst.level children = true := hlvl.symm ▸ hrep
          simp [representsB, hk, VDomNode.keys, VDomNode.value, VDomNode.attributes,
            VDomNode.listeners, VDomNode.children, setAllAttrs_fst,
            attachAllListeners_fst_pr, hrep']
    · rintro (_ | ⟨n, rest⟩) hn k p st hb hidx
      · exact ⟨[], st, by simp [addNodes], by simp, by simp, rfl⟩
      · have hhead : sizeOf n < m := lt_of_lt_of_le (sizeOf_head_lt n rest) hn
        have htail : sizeOf rest < m := lt_of_lt_of_le (sizeOf_tail_lt n rest) hn
        simp only [buildOkList, Bool.and_eq_true] at hb
        obtain ⟨hb1, hb2⟩ := hb
        obtain ⟨v, st1, h1eq, h1lvl, h1idx, h1rep⟩ :=
          (ih (sizeOf n) hhead).1 n le_rfl k p st hb1 hidx
        have hidx1 : st1.idx = st1.level.length := by
          rw [h1lvl, h1idx, hidx]
          simp
        obtain ⟨vs, st2, h2eq, h2lvl, h2idx, h2rep⟩ :=
          (ih (sizeOf rest) htail).2 rest le_rfl k p st1 hb2 hidx1
        refine ⟨v :: vs, st2, ?_, ?_, ?_, ?_⟩
        · simp only [addNodes, h1eq, h2eq]
        · rw [h2lvl, h1lvl, List.append_assoc, List.singleton_append]
        · rw [h2idx, h1idx, List.length_cons]
          omega
        · simp [representsListB, h1rep, h2rep]

/-- C3: idempotence of no-op reconciliation.  For every logical tree
whose keyed depth stays within the key-stack capacity, drawing it into an
empty shadow level and then reconciling the resulting shadow tree against
the same (structurally identical) logical tree issues zero host mutation
calls: the second pass returns the shadow level unchanged, allocates no
ids, and its call trace is empty. -/
theorem noop_reconciliation (n : LNode) (k : Keys) (p nid : Nat)
    (hb : buildOk k n = true) :
    ∃ st1, addNode k p { level := [], idx := 0, nextId := nid, calls := [] } n = some st1 ∧
      addNode k p { level := st1.level, idx := 0, nextId := st1.nextId, calls := [] } n
        = some { level := st1.level, idx := 1, nextId := st1.nextId, calls := [] } := by
  obtain ⟨v, st1, h1, hlvl, hidx, hrep⟩ :=
    (insert_aux (sizeOf n)).1 n le_rfl k p
      { level := [], idx := 0, nextId := nid, calls := [] } hb rfl
  simp only [List.nil_append] at hlvl
  refine ⟨st1, h1, ?_⟩
  have h2 := (noop_aux (sizeOf n)).1 n le_rfl k p st1.nextId [] [] [] v hrep
  simp only [List.nil_append, List.length_nil, Nat.zero_add] at h2
  rw [hlvl]
  exact h2

/-- C3 witness: drawing a concrete keyed tree with an attribute, a
listener and a text child, then reconciling it against itself, issues no
host calls. -/
theorem noop_reconciliation_witness :
    buildOk Keys.new (LNode.node (LNodeValue.tag "div") (some 4) [("a", "1")] [⟨5, "click"⟩]
        [LNode.node (LNodeValue.text "t") none [] [] []]) = true ∧
    ∃ st1, addNode Keys.new 0 { level := [], idx := 0, nextId := 1, calls := [] }
        (LNode.node (LNodeValue.tag "div") (some 4) [("a", "1")] [⟨5, "click"⟩]
          [LNode.node (LNodeValue.text "t") none [] [] []]) = some st1 ∧
      addNode Keys.new 0 { level := st1.level, idx := 0, nextId := st1.nextId, calls := [] }
          (LNode.node (LNodeValue.tag "div") (some 4) [("a", "1")] [⟨5, "click"⟩]
            [LNode.node (LNodeValue.text "t") none [] [] []])
        = some { level := st1.level, idx := 1, nextId := st1.nextId, calls := [] } :=
  ⟨by rfl,
   noop_reconciliation
     (LNode.node (LNodeValue.tag "div") (some 4) [("a", "1")] [⟨5, "click"⟩]
       [LNode.node (LNodeValue.text "t") none [] [] []]) Keys.new 0 1 (by rfl)⟩
